import Mathlib

/-!
Verification of the HGB-Dice probabilistic rule-evaluation engine.

This file gives a shallow embedding of the engine's Python sources
(`diceGame/diceProbs.py`, `diceGame/gameObjects.py`,
`HeavyGearBlitz/HGBRules.py`, `HeavyGearBlitz/HGBDiceStats.py`) in Lean 4
and proves the specified properties about it.

Modelling conventions:
* Python `float` / `Decimal` arithmetic is modelled by exact rational
  arithmetic (`ℚ`).  The sources fix `getcontext().prec = 12` and all the
  specified properties are stated "within tolerance"; over `ℚ` the
  corresponding identities are exact.
* Python dictionaries keyed by numbers (the PMFs) are modelled as a key
  `Finset` together with a value function.
* `frozenset`s of hashable values are modelled as `Finset`s of types with
  decidable equality.
-/

/-! ## diceGame/diceProbs.py -/

/-- A PMF as the dice modules build them: a Python dict from outcome value to
probability, modelled as the dict's key set plus its value function. -/
structure DicePMF where
  keys : Finset ℕ
  prob : ℕ → ℚ

/-- `prob_max_roll(dice, sides, val)`:
`((val / sides) ** dice) - ((val - 1) / sides) ** dice`. -/
def prob_max_roll (dice sides val : ℕ) : ℚ :=
  ((val : ℚ) / sides) ^ dice - (((val : ℚ) - 1) / sides) ^ dice

/-- `all_probs_high_die(dice, sides)`:
`{(k + 1): prob_max_roll(dice, sides, k + 1) for k in range(sides)}`,
i.e. the dict with keys `1..sides` valued by `prob_max_roll`. -/
def all_probs_high_die (dice sides : ℕ) : DicePMF :=
  ⟨Finset.Icc 1 sides, fun v => prob_max_roll dice sides v⟩

/-- `all_probs_threshold(dice, sides, val)`: the degenerate dict `{0: 1.0}`
when `sides < val or dice < 1`, otherwise the binomial dict over `0..dice`
with per-die chance `max(0, (sides - val) + 1) / sides`. -/
def all_probs_threshold (dice sides : ℕ) (val : ℤ) : DicePMF :=
  if (sides : ℤ) < val ∨ dice < 1 then ⟨{0}, fun _ => 1⟩
  else
    let dieChance : ℚ := ((max ((sides : ℤ) - val + 1) 0 : ℤ) : ℚ) / sides
    ⟨Finset.range (dice + 1),
      fun k => (dice.choose k : ℚ) * dieChance ^ k * (1 - dieChance) ^ (dice - k)⟩

/-- `expected(pdf)`: `sum(k * v for k, v in pdf.items())`. -/
def expected (m : DicePMF) : ℚ := ∑ k in m.keys, (k : ℚ) * m.prob k

/-- Total probability mass of a dict PMF. -/
def DicePMF.total (m : DicePMF) : ℚ := ∑ k in m.keys, m.prob k

lemma all_probs_high_die_total (dice sides : ℕ) (hd : 1 ≤ dice) (hs : 1 ≤ sides) :
    (all_probs_high_die dice sides).total = 1 := by
  have hs0 : (sides : ℚ) ≠ 0 := by
    exact_mod_cast Nat.one_le_iff_ne_zero.mp hs
  unfold DicePMF.total all_probs_high_die
  simp only
  rw [← Nat.Ico_succ_right, Finset.sum_Ico_eq_sum_range]
  have hstep : ∀ i ∈ Finset.range (sides + 1 - 1),
      prob_max_roll dice sides (1 + i)
        = (((i + 1 : ℕ) : ℚ) / sides) ^ dice - (((i : ℕ) : ℚ) / sides) ^ dice := by
    intro i _
    unfold prob_max_roll
    push_cast
    ring_nf
  rw [Finset.sum_congr rfl hstep,
    Finset.sum_range_sub (fun i => (((i : ℕ) : ℚ) / sides) ^ dice)]
  simp [hs0, zero_pow, Nat.one_le_iff_ne_zero.mp hd]

lemma all_probs_threshold_total (dice sides : ℕ) (val : ℤ) (hs : 1 ≤ sides) :
    (all_probs_threshold dice sides val).total = 1 := by
  have _ := hs
  unfold all_probs_threshold
  split_ifs with h
  · simp [DicePMF.total]
  · simp only [DicePMF.total]
    set p : ℚ := ((max ((sides : ℤ) - val + 1) 0 : ℤ) : ℚ) / sides with hp
    have hsum : ∑ k in Finset.range (dice + 1),
        (dice.choose k : ℚ) * p ^ k * (1 - p) ^ (dice - k)
        = (p + (1 - p)) ^ dice := by
      rw [add_pow p (1 - p) dice]
      exact Finset.sum_congr rfl fun k _ => by ring
    simpa using hsum

/-- C2: for every `numDice ≥ 1` and `sides ≥ 1` the PMF returned by
`all_probs_high_die` has total probability exactly 1, and for every input
with `sides ≥ 1` (the module's documented face-count domain) the PMF
returned by `all_probs_threshold` has total probability exactly 1; in
particular both totals are within `1e-9` of 1. -/
theorem dice_pmf_totals_are_one :
    (∀ dice sides : ℕ, 1 ≤ dice → 1 ≤ sides →
      (all_probs_high_die dice sides).total = 1) ∧
    (∀ (dice sides : ℕ) (val : ℤ), 1 ≤ sides →
      (all_probs_threshold dice sides val).total = 1) :=
  ⟨fun d s hd hs => all_probs_high_die_total d s hd hs,
   fun d s v hs => all_probs_threshold_total d s v hs⟩

/-- Witness for C2 at concrete inputs: 2 dice with 6 sides, and the
threshold PMF for 2 dice, 6 sides, threshold 4. -/
theorem dice_pmf_totals_are_one_witness :
    (all_probs_high_die 2 6).total = 1 ∧ (all_probs_threshold 2 6 4).total = 1 :=
  ⟨dice_pmf_totals_are_one.1 2 6 (by decide) (by decide),
   dice_pmf_totals_are_one.2 2 6 4 (by decide)⟩

/-! ## The possible-world model (diceGame/gameObjects.py + HGBRules.py enums)

`Effect.name` in the source is an arbitrary `Enum` member; the engine and
rule code use members of the `Enum` classes of `HGBRules.py` (plus
`RerollRules.BelowAverage` and `DebugMsg.GetSkill`, which are also used as
effect names).  We collect every member the embedded code mentions into one
inductive type. -/

inductive EffectName where
  | ModDice | ModResult | ModThreshold | MoS | Hit | Miss | Armor
  | Hull | Structure | WeaponDamage | AttackDamage | MarginalHit
  | BonusDamage | Crippled | Destroyed | Damage | Overdamage
  | DamageDenied | BelowAverage | GetSkill
deriving DecidableEq, Fintype

open EffectName

/-- `Effect` (HGBRules.py): `(name, source, value)`, value defaulting to 1,
compared by full structural equality. -/
structure Effect where
  name : EffectName
  source : String
  value : ℚ := 1
deriving DecidableEq

/-- `State` (gameObjects.py): a probability plus a `frozenset` of effects. -/
structure State where
  prob : ℚ := 1
  effects : Finset Effect := ∅
deriving DecidableEq

/-- The `kwargs` field-equality filters the engine passes to
`get_effects` / `remove_effects` / `sum_effects`: an optional constraint on
`name` and on `source` (the only fields filtered on in the embedded code). -/
structure EffFilter where
  name : Option EffectName := none
  source : Option String := none
deriving DecidableEq

/-- Does an effect satisfy every constraint of a field-equality filter? -/
def EffFilter.holds (f : EffFilter) (e : Effect) : Prop :=
  (∀ n ∈ f.name, e.name = n) ∧ (∀ s ∈ f.source, e.source = s)

instance (f : EffFilter) (e : Effect) : Decidable (f.holds e) := by
  unfold EffFilter.holds; infer_instance

/-- Filter by name only. -/
def byName (n : EffectName) : EffFilter := ⟨some n, none⟩

/-- Filter by name and source. -/
def byNameSource (n : EffectName) (s : String) : EffFilter := ⟨some n, some s⟩

/-- `State.add_effect`: union with the one-element set. -/
def State.add_effect (s : State) (e : Effect) : State :=
  { s with effects := insert e s.effects }

/-- `State.get_effects(**kwargs)`: the effects matching the filter. -/
def State.get_effects (s : State) (f : EffFilter) : Finset Effect :=
  s.effects.filter f.holds

/-- `State.remove_effects(**kwargs)`: drop the effects matching the filter. -/
def State.remove_effects (s : State) (f : EffFilter) : State :=
  { s with effects := s.effects.filter fun e => ¬ f.holds e }

/-- `State.sum_effects(**kwargs)`: the sum of the values of the matching
effects. -/
def State.sum_effects (s : State) (f : EffFilter) : ℚ :=
  ∑ e in s.get_effects f, e.value

/-! ## Component / Entity dispatch (diceGame/gameObjects.py)

Messages are the resolution-step names: the members of `RollTimeSteps`,
`ResolveTimeSteps` and `DebugMsg`. -/

inductive Msg where
  | INITIALIZE | CHECK_COVER | GATHER_DICE | GATHER_RESULT_BONUSES
  | GATHER_THRESHOLD_BONUSES | ROLL_DICE | ADD_SKILL
  | GATHER_MODEL_DATA | APPLY_HIT_MISS | CALC_ATTACK_DAMAGE
  | MOD_ATTACK_DAMAGE | APPLY_ATTACK_DAMAGE | ADD_EXTRA_EFFECTS
  | APPLY_EXTRA_DAMAGE | END_OF_ROUND | CLEANUP | GetSkillMsg
deriving DecidableEq

/-- A `Behavior`: one `State` in, a set of `State`s out. -/
def Behavior : Type := State → Finset State

/-- `Component._null_behavior`: `frozenset({state})`. -/
def null_behavior : Behavior := fun s => {s}

/-- A `Component`'s `_behaviors` defaultdict.  `regKeys` are the messages a
behavior was registered for in `__init__` (`handler` gives that behavior);
`extraKeys` are keys that were added by the defaultdict merely because the
component was passed an unregistered message (their stored value is the
default `_null_behavior`). -/
structure Component where
  regKeys : Finset Msg
  extraKeys : Finset Msg
  handler : Msg → Behavior

/-- `Component.valid_messages()`: all keys currently in the `_behaviors`
defaultdict, registered or spuriously added. -/
def Component.valid_messages (c : Component) : Finset Msg :=
  c.regKeys ∪ c.extraKeys

/-- `Component.run(msg, state)`: `self._behaviors[msg](state)`.  The
defaultdict lookup inserts the default for a missing key, so `run` returns
the possibly-updated component alongside the behavior's output. -/
def Component.run (c : Component) (msg : Msg) (s : State) :
    Component × Finset State :=
  ({ c with extraKeys := if msg ∈ c.regKeys then c.extraKeys
                         else insert msg c.extraKeys },
   if msg ∈ c.regKeys then c.handler msg s else null_behavior s)

/-- An `Entity`'s `_subscriptions` map from message to component list. -/
structure Entity where
  subs : Msg → List Component

/-- `Entity.add_component`: append the component to the subscription list of
every message in `component.valid_messages()`. -/
def Entity.add_component (e : Entity) (c : Component) : Entity :=
  ⟨fun m => if m ∈ c.valid_messages then e.subs m ++ [c] else e.subs m⟩

/-- C7: running a component on a message for which no behavior was
registered returns exactly the singleton of the unchanged input world. -/
theorem run_unregistered_is_identity (c : Component) (msg : Msg) (s : State)
    (h : msg ∉ c.regKeys) : (c.run msg s).2 = {s} := by
  simp [Component.run, h, null_behavior]

/-- Witness for C7: a fresh component with no registered behaviors returns
`{s}` for the `INITIALIZE` message. -/
theorem run_unregistered_is_identity_witness :
    ((Component.mk ∅ ∅ fun _ => null_behavior).run Msg.INITIALIZE
      (State.mk 1 ∅)).2 = {State.mk 1 ∅} :=
  run_unregistered_is_identity _ _ _ (by decide)

/-- C10: passing a component an unregistered message permanently adds that
message to `valid_messages()` (the defaultdict lookup inserts the key), and
an entity that later registers the component via `add_component` subscribes
it to that spurious step. -/
theorem run_unregistered_pollutes_subscriptions (c : Component) (msg : Msg)
    (s : State) (h : msg ∉ c.valid_messages) :
    msg ∈ ((c.run msg s).1).valid_messages ∧
    ∀ e : Entity, (c.run msg s).1 ∈ (e.add_component (c.run msg s).1).subs msg := by
  have hreg : msg ∉ c.regKeys := fun hx =>
    h (Finset.mem_union_left _ hx)
  constructor
  · simp [Component.run, hreg, Component.valid_messages]
  · intro e
    have hmem : msg ∈ ((c.run msg s).1).valid_messages := by
      simp [Component.run, hreg, Component.valid_messages]
    simp [Entity.add_component, hmem]

/-- Witness for C10: the fresh component polluted by an `INITIALIZE` lookup
reports `INITIALIZE` as valid and gets subscribed to it by a fresh entity. -/
theorem run_unregistered_pollutes_subscriptions_witness :
    Msg.INITIALIZE ∈
      (((Component.mk ∅ ∅ fun _ => null_behavior).run Msg.INITIALIZE
        (State.mk 1 ∅)).1).valid_messages ∧
    ((Component.mk ∅ ∅ fun _ => null_behavior).run Msg.INITIALIZE
        (State.mk 1 ∅)).1 ∈
      ((Entity.mk fun _ => []).add_component
        (((Component.mk ∅ ∅ fun _ => null_behavior).run Msg.INITIALIZE
          (State.mk 1 ∅)).1)).subs Msg.INITIALIZE := by
  have h := run_unregistered_pollutes_subscriptions
    (Component.mk ∅ ∅ fun _ => null_behavior) Msg.INITIALIZE
    (State.mk 1 ∅) (by decide)
  exact ⟨h.1, h.2 (Entity.mk fun _ => [])⟩

/-! ## HGBRules.py: rule behaviors -/

/-- The reroll-below-average transformation inlined in
`DiceRuleComponent._roll`: zero out every outcome strictly below the
expected value, then, for each rerolled outcome `r` and each outcome `v`,
add `P(r) * P(v)` back to `v`. -/
def rerollBelowAverage (m : DicePMF) : DicePMF :=
  ⟨m.keys, fun v =>
    (if (v : ℚ) < expected m then 0 else m.prob v) +
      (∑ r in m.keys.filter (fun r : ℕ => (r : ℚ) < expected m), m.prob r) * m.prob v⟩

/-- The `ModResult` effect `_roll` attaches for a rolled value. -/
def resultDieEffect (v : ℕ) : Effect := ⟨ModResult, "Result Die", (v : ℚ)⟩

namespace DiceRuleComponent

/-- `DiceRuleComponent._add_two`: grant the two base dice. -/
def add_two (s : State) : Finset State :=
  {s.add_effect ⟨ModDice, "Base Rules", 2⟩}

/-- The die count `_roll` uses: `dice = max(sum(ModDice), 1)` then
`int(dice)`. -/
def roll_dice_count (s : State) : ℕ :=
  (max (s.sum_effects (byName ModDice)) 1).floor.toNat

/-- The outcome PMF `_roll` branches over: the highest-die PMF on d6 for
the tallied dice, with the reroll-below-average rule folded in when a
`RerollRules.BelowAverage` effect is present. -/
def roll_pmf (s : State) : DicePMF :=
  if s.get_effects (byName BelowAverage) ≠ ∅ then
    rerollBelowAverage (all_probs_high_die (roll_dice_count s) 6)
  else all_probs_high_die (roll_dice_count s) 6

/-- `DiceRuleComponent._roll`: tally the dice (minimum 1), look up the
outcome PMF, and branch the input world into one world per outcome, each
weighted by the outcome's probability and annotated with its `Result Die`
effect. -/
def roll (s : State) : Finset State :=
  (roll_pmf s).keys.image fun v =>
    ({ s with prob := (roll_pmf s).prob v * s.prob }).add_effect (resultDieEffect v)

end DiceRuleComponent

/-- A numeric index for `EffectName`, used only to give `Effect` a linear
order so that the `frozenset` iteration in `apply_damage` can be modelled
by folding over a canonically sorted list. -/
def EffectName.idx : EffectName → ℕ
  | ModDice => 0 | ModResult => 1 | ModThreshold => 2 | MoS => 3
  | Hit => 4 | Miss => 5 | Armor => 6 | Hull => 7 | Structure => 8
  | WeaponDamage => 9 | AttackDamage => 10 | MarginalHit => 11
  | BonusDamage => 12 | Crippled => 13 | Destroyed => 14 | Damage => 15
  | Overdamage => 16 | DamageDenied => 17 | BelowAverage => 18
  | GetSkill => 19

/-- Lexicographic sort key for effects. -/
def Effect.sortKey (e : Effect) : ℕ ×ₗ (String ×ₗ ℚ) :=
  toLex (e.name.idx, toLex (e.source, e.value))

/-- The canonical linear order on effects used to enumerate a `Finset`. -/
def effectSortLe (a b : Effect) : Prop := a.sortKey ≤ b.sortKey

instance : DecidableRel effectSortLe := fun a b =>
  inferInstanceAs (Decidable (a.sortKey ≤ b.sortKey))

lemma effectSortKey_injective : Function.Injective Effect.sortKey := by
  intro a b h
  have hidx : Function.Injective EffectName.idx := by decide
  unfold Effect.sortKey at h
  have h' := congrArg ofLex h
  have h1 : a.name.idx = b.name.idx := congrArg Prod.fst h'
  have h2 := congrArg ofLex (congrArg Prod.snd h')
  cases a; cases b
  simp only at h1 h2
  exact by
    cases hidx h1
    cases congrArg Prod.fst h2
    cases congrArg Prod.snd h2
    rfl

instance : IsTrans Effect effectSortLe := ⟨fun _ _ _ h1 h2 => le_trans h1 h2⟩

instance : IsAntisymm Effect effectSortLe :=
  ⟨fun _ _ h1 h2 => effectSortKey_injective (le_antisymm h1 h2)⟩

instance : IsTotal Effect effectSortLe := ⟨fun _ _ => le_total _ _⟩

/-- `apply_damage`'s single loop iteration for one pending damage effect:
damage goes to hull first, the remainder to structure, the `Hull` and
`Structure` effects are replaced, `Destroyed`/`Crippled` markers are
updated, and any damage left beyond structure is recorded as `Overdamage`. -/
def damage_step (state : State) (eff : Effect) : State :=
  let damage := eff.value
  let source := eff.source
  let hull := state.sum_effects (byName Hull)
  let structure0 := state.sum_effects (byName Structure)
  let hull_damage := min damage hull
  let hull1 := hull - hull_damage
  let damage1 := damage - hull_damage
  let structure_damage := min damage1 structure0
  let structure1 := structure0 - structure_damage
  let damage2 := damage1 - structure_damage
  let state1 :=
    (((state.remove_effects (byName Hull)).remove_effects (byName Structure)).add_effect
        ⟨Hull, "Hull", hull1⟩).add_effect ⟨Structure, "Structure", structure1⟩
  let state2 :=
    if structure1 = 0 then
      (state1.add_effect ⟨Destroyed, source, 1⟩).remove_effects (byName Crippled)
    else if hull1 = 0 ∧ state1.get_effects (byName Crippled) = ∅ then
      state1.add_effect ⟨Crippled, source, 1⟩
    else state1
  if 0 < damage2 then state2.add_effect ⟨Overdamage, source, damage2⟩ else state2

/-- `apply_damage(state, filter)`: no-op on a `Destroyed` world, otherwise
apply every pending damage effect matching the filter in turn (the source
iterates the matching `frozenset` in an unspecified order; we enumerate it
in the canonical sorted order). -/
def apply_damage (state : State) (filter : EffFilter) : State :=
  if state.get_effects (byName Destroyed) ≠ ∅ then state
  else ((state.get_effects filter).sort effectSortLe).foldl damage_step state

namespace AttackRuleComponent

/-- `AttackRuleComponent._hit_miss`: MoS `≥ 0` is a `Hit`, `< 0` a `Miss`. -/
def hit_miss (s : State) : Finset State :=
  let mos := s.sum_effects (byName MoS)
  if 0 ≤ mos then {s.add_effect ⟨Hit, "Base Rules", 1⟩}
  else {s.add_effect ⟨Miss, "Base Rules", 1⟩}

/-- `AttackRuleComponent._calc_attack_damage`: on a `Hit` world, compute
`damage + mos - armor`, record a pending `MarginalHit` when that nets to
exactly zero, and attach the clamped `AttackDamage` effect. -/
def calc_attack_damage (s : State) : Finset State :=
  if s.get_effects (byName Hit) = ∅ then {s}
  else
    let damage := s.sum_effects (byName WeaponDamage)
    let armor := s.sum_effects (byName Armor)
    let mos := s.sum_effects (byName MoS)
    let attack_damage := damage + mos - armor
    let s1 := if attack_damage = 0 then s.add_effect ⟨MarginalHit, "Base Rules", 1⟩
              else s
    {s1.add_effect ⟨AttackDamage, "Base Rules", max attack_damage 0⟩}

/-- `AttackRuleComponent._marginal_hit`: if a pending `MarginalHit` is
present, remove it and branch 50/50 into a world with no bonus damage and a
world with one bonus `AttackDamage` from source `"Marginal Hit"`. -/
def marginal_hit (s : State) : Finset State :=
  if s.get_effects (byName MarginalHit) = ∅ then {s}
  else
    let s1 := s.remove_effects (byName MarginalHit)
    let no_hit : State := { s1 with prob := s1.prob * (1 / 2 : ℚ) }
    let hit := no_hit.add_effect ⟨AttackDamage, "Marginal Hit", 1⟩
    {no_hit, hit}

/-- `AttackRuleComponent._apply_attack_damage`: on a non-`Miss` world, apply
`AttackDamage` effects in fixed source-priority order. -/
def apply_attack_damage (s : State) : Finset State :=
  if s.get_effects (byName Miss) ≠ ∅ then {s}
  else
    {["Base Rules", "Marginal Hit", "AP"].foldl
      (fun st src => apply_damage st (byNameSource AttackDamage src)) s}

end AttackRuleComponent

namespace AnalysisComponent

/-- The damage-unification predicate of `AnalysisComponent._cleanup`. -/
def is_all_damage (e : Effect) : Prop :=
  e.name = AttackDamage ∨ e.name = BonusDamage

instance (e : Effect) : Decidable (is_all_damage e) := by
  unfold is_all_damage; infer_instance

/-- `AnalysisComponent._cleanup`: copy every `AttackDamage`/`BonusDamage`
effect into an `AnalysisEffects.Damage` effect preserving source and value,
then remove the originals. -/
def cleanup (s : State) : Finset State :=
  let s1 : State :=
    { s with effects := s.effects ∪
        (s.effects.filter is_all_damage).image fun e => ⟨Damage, e.source, e.value⟩ }
  {{ s1 with effects := s1.effects.filter fun e => ¬ is_all_damage e }}

end AnalysisComponent

/-- `DiceBonusComponent._add_dice`. -/
def DiceBonusComponent.add_dice (source : String) (value : ℚ) (s : State) :
    Finset State :=
  {s.add_effect ⟨ModDice, source, value⟩}

/-- `ResultBonusComponent._add_result`. -/
def ResultBonusComponent.add_result (source : String) (value : ℚ) (s : State) :
    Finset State :=
  {s.add_effect ⟨ModResult, source, value⟩}

/-- `ThresholdBonusComponent._add_threshold`. -/
def ThresholdBonusComponent.add_threshold (source : String) (value : ℚ)
    (s : State) : Finset State :=
  {s.add_effect ⟨ModThreshold, source, value⟩}

/-- `BasicTraitComponent._add_trait`. -/
def BasicTraitComponent.add_trait (effect_name : EffectName) (source : String)
    (value : ℚ) (s : State) : Finset State :=
  {s.add_effect ⟨effect_name, source, value⟩}

/-! ## Mass conservation of the engine's behaviors (C1) -/

/-- A behavior conserves probability mass at an input world when the sum of
its output worlds' probabilities equals the input world's probability. -/
def conserves_mass (b : State → Finset State) (s : State) : Prop :=
  ∑ t in b s, t.prob = s.prob

lemma damage_step_prob (st : State) (e : Effect) :
    (damage_step st e).prob = st.prob := by
  unfold damage_step
  dsimp only
  split_ifs <;> rfl

lemma foldl_damage_step_prob (l : List Effect) (st : State) :
    (l.foldl damage_step st).prob = st.prob := by
  induction l generalizing st with
  | nil => rfl
  | cons e l ih => rw [List.foldl_cons, ih, damage_step_prob]

lemma apply_damage_prob (st : State) (f : EffFilter) :
    (apply_damage st f).prob = st.prob := by
  unfold apply_damage
  split_ifs
  · rfl
  · exact foldl_damage_step_prob _ _

/-- Mass conservation of the reroll-below-average transformation: it
redistributes the rerolled mass over the original PMF without changing the
total. -/
lemma rerollBelowAverage_total (m : DicePMF) (h : m.total = 1) :
    (rerollBelowAverage m).total = 1 := by
  unfold DicePMF.total at h ⊢
  unfold rerollBelowAverage
  dsimp only
  rw [Finset.sum_add_distrib, ← Finset.mul_sum, h, mul_one]
  have hsplit := Finset.sum_filter_add_sum_filter_not m.keys
    (fun r : ℕ => (r : ℚ) < expected m) m.prob
  have hif : ∑ v in m.keys, (if (v : ℚ) < expected m then 0 else m.prob v)
      = ∑ v in m.keys.filter (fun v : ℕ => ¬ (v : ℚ) < expected m), m.prob v := by
    rw [Finset.sum_filter]
    exact Finset.sum_congr rfl fun v _ => by
      by_cases hc : (v : ℚ) < expected m <;> simp [hc]
  rw [hif]
  linarith [hsplit, h]

lemma one_le_roll_dice_count (s : State) : 1 ≤ DiceRuleComponent.roll_dice_count s := by
  unfold DiceRuleComponent.roll_dice_count
  have h2 : (1 : ℤ) ≤ (max (s.sum_effects (byName ModDice)) 1).floor :=
    Rat.le_floor.mpr (by exact_mod_cast le_max_right (s.sum_effects (byName ModDice)) 1)
  omega

lemma roll_pmf_keys (s : State) :
    (DiceRuleComponent.roll_pmf s).keys = Finset.Icc 1 6 := by
  unfold DiceRuleComponent.roll_pmf
  split_ifs <;> rfl

lemma roll_pmf_total (s : State) : (DiceRuleComponent.roll_pmf s).total = 1 := by
  unfold DiceRuleComponent.roll_pmf
  split_ifs with h
  · exact rerollBelowAverage_total _
      (all_probs_high_die_total _ 6 (one_le_roll_dice_count s) (by norm_num))
  · exact all_probs_high_die_total _ 6 (one_le_roll_dice_count s) (by norm_num)

lemma roll_conserves_mass (s : State)
    (hres : ∀ v : ℕ, resultDieEffect v ∉ s.effects) :
    conserves_mass DiceRuleComponent.roll s := by
  unfold conserves_mass DiceRuleComponent.roll
  have hinj : ∀ x ∈ (DiceRuleComponent.roll_pmf s).keys,
      ∀ y ∈ (DiceRuleComponent.roll_pmf s).keys,
      ({ s with prob := (DiceRuleComponent.roll_pmf s).prob x * s.prob
         }).add_effect (resultDieEffect x)
        = ({ s with prob := (DiceRuleComponent.roll_pmf s).prob y * s.prob
           }).add_effect (resultDieEffect y) → x = y := by
    intro x _ y _ hxy
    have hx : resultDieEffect x ∈
        (({ s with prob := (DiceRuleComponent.roll_pmf s).prob y * s.prob
          }).add_effect (resultDieEffect y)).effects := by
      rw [← hxy]
      exact Finset.mem_insert_self _ _
    rcases Finset.mem_insert.mp hx with h | h
    · have : ((x : ℕ) : ℚ) = ((y : ℕ) : ℚ) := congrArg Effect.value h
      exact_mod_cast this
    · exact absurd h (hres x)
  rw [Finset.sum_image hinj]
  have : ∑ v in (DiceRuleComponent.roll_pmf s).keys,
      ((({ s with prob := (DiceRuleComponent.roll_pmf s).prob v * s.prob
        }).add_effect (resultDieEffect v)).prob)
      = ∑ v in (DiceRuleComponent.roll_pmf s).keys,
        (DiceRuleComponent.roll_pmf s).prob v * s.prob :=
    Finset.sum_congr rfl fun v _ => rfl
  rw [this, ← Finset.sum_mul]
  have htot := roll_pmf_total s
  unfold DicePMF.total at htot
  rw [htot, one_mul]

lemma marginal_hit_conserves_mass (s : State)
    (hno : (⟨AttackDamage, "Marginal Hit", 1⟩ : Effect) ∉ s.effects) :
    conserves_mass AttackRuleComponent.marginal_hit s := by
  unfold conserves_mass AttackRuleComponent.marginal_hit
  split_ifs with h
  · exact Finset.sum_singleton _ _
  · dsimp only
    have hne : ({ s.remove_effects (byName MarginalHit) with
          prob := (s.remove_effects (byName MarginalHit)).prob * (1 / 2 : ℚ) } : State)
        ≠ ({ s.remove_effects (byName MarginalHit) with
          prob := (s.remove_effects (byName MarginalHit)).prob * (1 / 2 : ℚ)
          } : State).add_effect ⟨AttackDamage, "Marginal Hit", 1⟩ := by
      intro hcontra
      have : (⟨AttackDamage, "Marginal Hit", 1⟩ : Effect) ∈
          (s.remove_effects (byName MarginalHit)).effects := by
        have := congrArg State.effects hcontra
        unfold State.add_effect at this
        dsimp at this
        rw [this]
        exact Finset.mem_insert_self _ _
      exact hno (Finset.mem_of_mem_filter _ this)
    rw [Finset.sum_pair hne]
    unfold State.add_effect State.remove_effects
    dsimp only
    ring

/-- C1 (amended): every engine behavior other than the Phase-2
cross-product conserves probability mass on a single input world — for the
non-branching behaviors unconditionally; for `_marginal_hit` provided the
input world does not already contain the marginal-hit bonus-damage effect
`Effect(AttackDamage, "Marginal Hit", 1)`; and for `_roll` provided the
input world does not already contain a `Result Die` effect (in either
excluded case the two coinciding branch worlds collapse in the output
`frozenset` and mass is lost). -/
theorem behaviors_conserve_mass (s : State) :
    conserves_mass null_behavior s ∧
    conserves_mass DiceRuleComponent.add_two s ∧
    conserves_mass AttackRuleComponent.hit_miss s ∧
    conserves_mass AttackRuleComponent.calc_attack_damage s ∧
    conserves_mass AttackRuleComponent.apply_attack_damage s ∧
    conserves_mass AnalysisComponent.cleanup s ∧
    (∀ (src : String) (v : ℚ), conserves_mass (DiceBonusComponent.add_dice src v) s) ∧
    (∀ (src : String) (v : ℚ), conserves_mass (ResultBonusComponent.add_result src v) s) ∧
    (∀ (src : String) (v : ℚ),
      conserves_mass (ThresholdBonusComponent.add_threshold src v) s) ∧
    (∀ (n : EffectName) (src : String) (v : ℚ),
      conserves_mass (BasicTraitComponent.add_trait n src v) s) ∧
    ((⟨AttackDamage, "Marginal Hit", 1⟩ : Effect) ∉ s.effects →
      conserves_mass AttackRuleComponent.marginal_hit s) ∧
    ((∀ v : ℕ, resultDieEffect v ∉ s.effects) →
      conserves_mass DiceRuleComponent.roll s) := by
  refine ⟨?_, ?_, ?_, ?_, ?_, ?_, ?_, ?_, ?_, ?_,
    marginal_hit_conserves_mass s, roll_conserves_mass s⟩
  · exact Finset.sum_singleton _ _
  · exact Finset.sum_singleton _ _
  · unfold conserves_mass AttackRuleComponent.hit_miss
    dsimp only
    split_ifs <;> (rw [Finset.sum_singleton]; rfl)
  · unfold conserves_mass AttackRuleComponent.calc_attack_damage
    dsimp only
    split_ifs <;> (rw [Finset.sum_singleton]; try rfl)
  · unfold conserves_mass AttackRuleComponent.apply_attack_damage
    split_ifs with h1
    · exact Finset.sum_singleton _ _
    · rw [Finset.sum_singleton]
      simp only [List.foldl_cons, List.foldl_nil]
      rw [apply_damage_prob, apply_damage_prob, apply_damage_prob]
  · unfold conserves_mass AnalysisComponent.cleanup
    exact Finset.sum_singleton _ _
  · intro src v; exact Finset.sum_singleton _ _
  · intro src v; exact Finset.sum_singleton _ _
  · intro src v; exact Finset.sum_singleton _ _
  · intro n src v; exact Finset.sum_singleton _ _

/-- Witness for C1 at the empty starting world (probability 1, no effects):
both provisos hold there, so `_marginal_hit` and `_roll` conserve mass. -/
theorem behaviors_conserve_mass_witness :
    conserves_mass AttackRuleComponent.marginal_hit (State.mk 1 ∅) ∧
    conserves_mass DiceRuleComponent.roll (State.mk 1 ∅) := by
  have h := behaviors_conserve_mass (State.mk 1 ∅)
  exact ⟨h.2.2.2.2.2.2.2.2.2.2.1 (by simp),
    h.2.2.2.2.2.2.2.2.2.2.2 (by simp)⟩

/-- A world that already carries the marginal-hit bonus-damage effect and a
pending `MarginalHit`: the two branches of `_marginal_hit` coincide on it. -/
def mhCollidingState : State :=
  ⟨1, {⟨MarginalHit, "Base Rules", 1⟩, ⟨AttackDamage, "Marginal Hit", 1⟩}⟩

/-- On a world with a pending `MarginalHit` that already carries the
marginal-hit bonus-damage effect, the two branches of `_marginal_hit`
coincide and the output `frozenset` collapses to a single world of half the
input probability. -/
lemma marginal_hit_collapsed (s : State)
    (hpend : s.get_effects (byName MarginalHit) ≠ ∅)
    (hin : (⟨AttackDamage, "Marginal Hit", 1⟩ : Effect) ∈ s.effects) :
    AttackRuleComponent.marginal_hit s
      = {{ s.remove_effects (byName MarginalHit) with
            prob := (s.remove_effects (byName MarginalHit)).prob * (1 / 2 : ℚ) }} := by
  unfold AttackRuleComponent.marginal_hit
  rw [if_neg hpend]
  dsimp only
  have hmem : (⟨AttackDamage, "Marginal Hit", 1⟩ : Effect) ∈
      (s.remove_effects (byName MarginalHit)).effects := by
    unfold State.remove_effects
    dsimp only
    rw [Finset.mem_filter]
    exact ⟨hin, by simp [EffFilter.holds, byName]⟩
  have hhit : (({ s.remove_effects (byName MarginalHit) with
        prob := (s.remove_effects (byName MarginalHit)).prob * (1 / 2 : ℚ) } :
          State)).add_effect ⟨AttackDamage, "Marginal Hit", 1⟩
      = { s.remove_effects (byName MarginalHit) with
          prob := (s.remove_effects (byName MarginalHit)).prob * (1 / 2 : ℚ) } := by
    unfold State.add_effect
    exact congrArg (State.mk _) (Finset.insert_eq_self.mpr hmem)
  rw [hhit]
  exact Finset.insert_eq_self.mpr (Finset.mem_singleton_self _)

/-- Counterexample to C1 as stated: `_marginal_hit` is a Behavior other
than the Phase-2 cross-product, yet on the world `mhCollidingState` (of
probability 1) its output worlds' probabilities sum to 1/2, not 1. -/
theorem marginal_hit_mass_counterexample :
    (∑ t in AttackRuleComponent.marginal_hit mhCollidingState, t.prob) = 1 / 2 ∧
    mhCollidingState.prob = 1 := by
  constructor
  · rw [marginal_hit_collapsed mhCollidingState (by decide) (by decide),
      Finset.sum_singleton]
    show (mhCollidingState.remove_effects (byName MarginalHit)).prob * (1 / 2 : ℚ)
      = 1 / 2
    show (1 : ℚ) * (1 / 2) = 1 / 2
    norm_num
  · rfl

/-! ## C6: `apply_damage` on a destroyed world -/

/-- C6: on any world already containing a `Destroyed` effect,
`apply_damage` returns the world unchanged, whatever the filter. -/
theorem apply_damage_destroyed_unchanged (s : State) (f : EffFilter)
    (h : s.get_effects (byName Destroyed) ≠ ∅) : apply_damage s f = s := by
  unfold apply_damage
  rw [if_pos h]

/-- Witness for C6: a destroyed world with hull left and a pending matching
damage effect is returned untouched. -/
theorem apply_damage_destroyed_unchanged_witness :
    apply_damage
      ⟨1, {⟨Destroyed, "Base Rules", 1⟩, ⟨Hull, "Hull", 2⟩,
           ⟨AttackDamage, "Base Rules", 3⟩}⟩
      (byNameSource AttackDamage "Base Rules")
      = ⟨1, {⟨Destroyed, "Base Rules", 1⟩, ⟨Hull, "Hull", 2⟩,
             ⟨AttackDamage, "Base Rules", 3⟩}⟩ :=
  apply_damage_destroyed_unchanged _ _ (by decide)

/-! ## HGBDiceStats.py: the cumulative "at least" transform (C8) -/

/-- `make_mins(totals)` (HGBDiceStats.py): map each key `val` of the PDF to
the sum of the probabilities of all keys `t_val >= val`.  The PDF dict is
modelled as its key set plus its value function over `ℚ` keys. -/
def make_mins (keys : Finset ℚ) (p : ℚ → ℚ) : ℚ → ℚ :=
  fun val => ∑ t in keys.filter (fun t => val ≤ t), p t

/-- C8: on any PMF (nonnegative probabilities summing to 1 over a nonempty
key set), `make_mins` evaluates to 1 at the minimum key, and its values are
non-increasing as the key increases. -/
theorem make_mins_cumulative (keys : Finset ℚ) (p : ℚ → ℚ)
    (hne : keys.Nonempty) (hsum : ∑ t in keys, p t = 1)
    (hnn : ∀ t ∈ keys, 0 ≤ p t) :
    make_mins keys p (keys.min' hne) = 1 ∧
    ∀ v ∈ keys, ∀ w ∈ keys, v ≤ w → make_mins keys p w ≤ make_mins keys p v := by
  constructor
  · unfold make_mins
    rw [Finset.filter_true_of_mem fun t ht => keys.min'_le t ht]
    exact hsum
  · intro v _ w _ hvw
    unfold make_mins
    refine Finset.sum_le_sum_of_subset_of_nonneg ?_ ?_
    · intro t ht
      rw [Finset.mem_filter] at ht ⊢
      exact ⟨ht.1, le_trans hvw ht.2⟩
    · intro t ht _
      exact hnn t (Finset.mem_of_mem_filter _ ht)

/-- Witness for C8 on the concrete PMF `{0: 1/2, 2: 1/2}`. -/
theorem make_mins_cumulative_witness :
    make_mins {0, 2} (fun _ => (1 / 2 : ℚ))
        ((({0, 2} : Finset ℚ)).min' ⟨0, by norm_num⟩) = 1 ∧
    make_mins {0, 2} (fun _ => (1 / 2 : ℚ)) 2
      ≤ make_mins {0, 2} (fun _ => (1 / 2 : ℚ)) 0 := by
  have h02 : ((0 : ℚ)) ≠ 2 := by norm_num
  have h := make_mins_cumulative {0, 2} (fun _ => (1 / 2 : ℚ)) ⟨0, by norm_num⟩
    (by rw [Finset.sum_pair h02]; norm_num) (fun t _ => by norm_num)
  exact ⟨h.1, h.2 0 (by norm_num) 2 (by norm_num) (by norm_num)⟩

/-! ## C9: rerolling below average never decreases expectation -/

lemma sum_reroll_expand (keys : Finset ℕ) (p : ℕ → ℚ) (E : ℚ) :
    ∑ v in keys, (v : ℚ) * ((if (v : ℚ) < E then 0 else p v) +
        (∑ r in keys.filter (fun r : ℕ => (r : ℚ) < E), p r) * p v)
      = (∑ v in keys.filter (fun v : ℕ => ¬ (v : ℚ) < E), (v : ℚ) * p v)
        + (∑ r in keys.filter (fun r : ℕ => (r : ℚ) < E), p r)
          * (∑ v in keys, (v : ℚ) * p v) := by
  have hsummand : ∀ v ∈ keys, (v : ℚ) * ((if (v : ℚ) < E then 0 else p v) +
        (∑ r in keys.filter (fun r : ℕ => (r : ℚ) < E), p r) * p v)
      = (if (v : ℚ) < E then 0 else (v : ℚ) * p v)
        + (∑ r in keys.filter (fun r : ℕ => (r : ℚ) < E), p r) * ((v : ℚ) * p v) := by
    intro v _
    by_cases hc : (v : ℚ) < E <;> simp [hc] <;> ring
  rw [Finset.sum_congr rfl hsummand, Finset.sum_add_distrib, ← Finset.mul_sum]
  congr 1
  rw [Finset.sum_filter]
  exact Finset.sum_congr rfl fun v _ => by
    by_cases hc : (v : ℚ) < E <;> simp [hc]

/-- On any PMF dict with nonnegative probabilities, the
reroll-below-average transformation cannot decrease the expected value. -/
lemma expected_reroll_ge (m : DicePMF) (hnn : ∀ k ∈ m.keys, 0 ≤ m.prob k) :
    expected m ≤ expected (rerollBelowAverage m) := by
  have h1 : expected (rerollBelowAverage m)
      = (∑ v in m.keys.filter (fun v : ℕ => ¬ (v : ℚ) < expected m),
            (v : ℚ) * m.prob v)
        + (∑ r in m.keys.filter (fun r : ℕ => (r : ℚ) < expected m), m.prob r)
          * (∑ v in m.keys, (v : ℚ) * m.prob v) :=
    sum_reroll_expand m.keys m.prob (expected m)
  have hsplit := Finset.sum_filter_add_sum_filter_not m.keys
    (fun r : ℕ => (r : ℚ) < expected m) (fun k => (k : ℚ) * m.prob k)
  have hE : ∑ v in m.keys, (v : ℚ) * m.prob v = expected m := rfl
  rw [h1, hE]
  have h2 : ∑ v in m.keys.filter (fun v : ℕ => (v : ℚ) < expected m),
        (v : ℚ) * m.prob v
      ≤ (∑ r in m.keys.filter (fun r : ℕ => (r : ℚ) < expected m), m.prob r)
        * expected m := by
    rw [Finset.sum_mul]
    refine Finset.sum_le_sum ?_
    intro r hr
    obtain ⟨hrk, hrlt⟩ := Finset.mem_filter.mp hr
    rw [mul_comm]
    exact mul_le_mul_of_nonneg_left (le_of_lt hrlt) (hnn r hrk)
  rw [hE] at hsplit
  linarith [hsplit, h2]

lemma prob_max_roll_nonneg (d s k : ℕ) (hk : 1 ≤ k) :
    0 ≤ prob_max_roll d s k := by
  unfold prob_max_roll
  rcases Nat.eq_zero_or_pos s with hs | hs
  · subst hs
    simp [zero_pow]
  · have hsq : (0 : ℚ) < s := by exact_mod_cast hs
    have h0 : (0 : ℚ) ≤ ((k : ℚ) - 1) / s := by
      apply div_nonneg _ (le_of_lt hsq)
      have : (1 : ℚ) ≤ (k : ℚ) := by exact_mod_cast hk
      linarith
    have h1 : ((k : ℚ) - 1) / s ≤ (k : ℚ) / s := by
      apply div_le_div_of_nonneg_right ?_ hsq.le
      linarith
    exact sub_nonneg.mpr (pow_le_pow_left₀ h0 h1 d)

/-- C9: for every `numDice ≥ 1`, the expected value of the PMF produced by
applying the reroll-below-average transformation to
`all_probs_high_die(numDice, 6)` is at least the expected value of the
original PMF. -/
theorem reroll_expectation_ge (numDice : ℕ) (h : 1 ≤ numDice) :
    expected (all_probs_high_die numDice 6)
      ≤ expected (rerollBelowAverage (all_probs_high_die numDice 6)) := by
  have _ := h
  refine expected_reroll_ge _ ?_
  intro k hk
  exact prob_max_roll_nonneg numDice 6 k (Finset.mem_Icc.mp hk).1

/-- Witness for C9 at one die. -/
theorem reroll_expectation_ge_witness :
    expected (all_probs_high_die 1 6)
      ≤ expected (rerollBelowAverage (all_probs_high_die 1 6)) :=
  reroll_expectation_ge 1 (by decide)

/-! ## C3: the Phase-2 cross-product and hit/miss determination

`Scenario.evaluate` accumulates, for every pair of an attacker roll world
and a defender roll world, the product of their probabilities into a
defaultdict keyed by the margin `att_roll - def_roll`; each distinct margin
then becomes one fresh world carrying the accumulated probability and a
single `MoS` effect.  The grouped accumulation over `product(att, dfd)` is
the filtered sum below. -/

/-- The roll result read off a world: `sum_effects(name=ModResult)`. -/
def result_value (s : State) : ℚ := s.sum_effects (byName ModResult)

/-- `mos_probs[mos]` after the accumulation loop. -/
def mos_probs (att dfd : Finset State) (mos : ℚ) : ℚ :=
  ∑ p in (att ×ˢ dfd).filter
      (fun p => result_value p.1 - result_value p.2 = mos),
    p.1.prob * p.2.prob

/-- The distinct margins occurring across the Cartesian product. -/
def mos_values (att dfd : Finset State) : Finset ℚ :=
  (att ×ˢ dfd).image fun p => result_value p.1 - result_value p.2

/-- The `MoS` effect attached to a margin world. -/
def mosEffect (mos : ℚ) : Effect := ⟨MoS, "Base Rules", mos⟩

/-- The `mos_states` world-set `Scenario.evaluate` builds from the two
independent roll world-sets. -/
def mos_states (att dfd : Finset State) : Finset State :=
  (mos_values att dfd).image fun mos =>
    ⟨mos_probs att dfd mos, {mosEffect mos}⟩

/-- C3: every Phase-2 margin world's margin is an attacker result value
minus a defender result value, its probability is the sum of
`P(attacker-world) * P(defender-world)` over all Cartesian-product pairs
realising that margin, and `_hit_miss` adds a `Hit` effect exactly when the
world's summed `MoS` value is `≥ 0` (including 0) and a `Miss` effect when
it is `< 0`. -/
theorem phase2_margin_and_hit_miss :
    (∀ att dfd : Finset State, ∀ w ∈ mos_states att dfd,
      ∃ a ∈ att, ∃ d ∈ dfd,
        w.effects = {mosEffect (result_value a - result_value d)} ∧
        w.prob = ∑ p in (att ×ˢ dfd).filter
            (fun p => result_value p.1 - result_value p.2
              = result_value a - result_value d),
          p.1.prob * p.2.prob) ∧
    (∀ s : State,
      (0 ≤ s.sum_effects (byName MoS) →
        AttackRuleComponent.hit_miss s
          = {s.add_effect ⟨Hit, "Base Rules", 1⟩}) ∧
      (s.sum_effects (byName MoS) < 0 →
        AttackRuleComponent.hit_miss s
          = {s.add_effect ⟨Miss, "Base Rules", 1⟩})) := by
  constructor
  · intro att dfd w hw
    obtain ⟨mos, hmos, rfl⟩ := Finset.mem_image.mp hw
    obtain ⟨p, hp, rfl⟩ := Finset.mem_image.mp hmos
    obtain ⟨hpa, hpd⟩ := Finset.mem_product.mp hp
    exact ⟨p.1, hpa, p.2, hpd, rfl, rfl⟩
  · intro s
    constructor
    · intro h
      unfold AttackRuleComponent.hit_miss
      dsimp only
      rw [if_pos h]
    · intro h
      unfold AttackRuleComponent.hit_miss
      dsimp only
      rw [if_neg (not_le.mpr h)]

/-- A concrete attacker roll world (result 4) for the C3 witness. -/
def attRollW : State := ⟨1, {resultDieEffect 4}⟩

/-- A concrete defender roll world (result 3) for the C3 witness. -/
def defRollW : State := ⟨1, {resultDieEffect 3}⟩

/-- The margin world built from `attRollW` and `defRollW`. -/
def mosWorldW : State :=
  ⟨mos_probs {attRollW} {defRollW} (result_value attRollW - result_value defRollW),
   {mosEffect (result_value attRollW - result_value defRollW)}⟩

/-- Witness for C3: the single margin world of the singleton roll sets has
margin `result_value attRollW - result_value defRollW` and the product
probability, and `_hit_miss` adds a `Hit` on a zero-margin world. -/
theorem phase2_margin_and_hit_miss_witness :
    (∃ a ∈ ({attRollW} : Finset State), ∃ d ∈ ({defRollW} : Finset State),
        mosWorldW.effects = {mosEffect (result_value a - result_value d)} ∧
        mosWorldW.prob = ∑ p in (({attRollW} : Finset State) ×ˢ {defRollW}).filter
            (fun p => result_value p.1 - result_value p.2
              = result_value a - result_value d),
          p.1.prob * p.2.prob) ∧
    AttackRuleComponent.hit_miss ⟨1, {mosEffect 0}⟩
      = {(⟨1, {mosEffect 0}⟩ : State).add_effect ⟨Hit, "Base Rules", 1⟩} := by
  constructor
  · refine phase2_margin_and_hit_miss.1 {attRollW} {defRollW} mosWorldW ?_
    unfold mos_states
    refine Finset.mem_image.mpr
      ⟨result_value attRollW - result_value defRollW, ?_, rfl⟩
    unfold mos_values
    exact Finset.mem_image.mpr ⟨(attRollW, defRollW),
      Finset.mem_product.mpr
        ⟨Finset.mem_singleton_self _, Finset.mem_singleton_self _⟩, rfl⟩
  · refine (phase2_margin_and_hit_miss.2 ⟨1, {mosEffect 0}⟩).1 ?_
    simp [State.sum_effects, State.get_effects, EffFilter.holds, byName, mosEffect,
      Finset.filter_singleton]

/-! ## C4: the marginal-hit pending effect and its 50/50 branch -/

/-- On a world with a pending `MarginalHit` that does not already carry the
marginal-hit bonus-damage effect, `_marginal_hit` branches into exactly the
two half-probability worlds. -/
lemma marginal_hit_branches (t : State)
    (hpend : t.get_effects (byName MarginalHit) ≠ ∅)
    (hnot : (⟨AttackDamage, "Marginal Hit", 1⟩ : Effect) ∉ t.effects) :
    AttackRuleComponent.marginal_hit t
      = {{ t.remove_effects (byName MarginalHit) with
            prob := (t.remove_effects (byName MarginalHit)).prob * (1 / 2 : ℚ) },
         ({ t.remove_effects (byName MarginalHit) with
            prob := (t.remove_effects (byName MarginalHit)).prob * (1 / 2 : ℚ) } :
              State).add_effect ⟨AttackDamage, "Marginal Hit", 1⟩} ∧
      (AttackRuleComponent.marginal_hit t).card = 2 := by
  have hset : AttackRuleComponent.marginal_hit t
      = {{ t.remove_effects (byName MarginalHit) with
            prob := (t.remove_effects (byName MarginalHit)).prob * (1 / 2 : ℚ) },
         ({ t.remove_effects (byName MarginalHit) with
            prob := (t.remove_effects (byName MarginalHit)).prob * (1 / 2 : ℚ) } :
              State).add_effect ⟨AttackDamage, "Marginal Hit", 1⟩} := by
    unfold AttackRuleComponent.marginal_hit
    rw [if_neg hpend]
  refine ⟨hset, ?_⟩
  rw [hset]
  refine Finset.card_pair ?_
  intro heq
  have heff := congrArg State.effects heq
  unfold State.add_effect at heff
  dsimp only at heff
  have hmem : (⟨AttackDamage, "Marginal Hit", 1⟩ : Effect) ∈
      (t.remove_effects (byName MarginalHit)).effects := by
    rw [heff]
    exact Finset.mem_insert_self _ _
  exact hnot (Finset.mem_of_mem_filter _ hmem)

/-- C4 (amended): on every `Hit` world whose weapon damage plus margin
minus armor nets to exactly 0 and which does not already carry the
marginal-hit bonus-damage effect, `_calc_attack_damage` returns a single
world of unchanged probability carrying a pending `MarginalHit` effect, and
`_marginal_hit` then removes the pending effect and returns exactly two
branch worlds, each of half the input probability, one without the bonus
`AttackDamage ("Marginal Hit", 1)` effect and one with it added. -/
theorem marginal_hit_pending_and_branch (s : State)
    (hhit : s.get_effects (byName Hit) ≠ ∅)
    (hzero : s.sum_effects (byName WeaponDamage) + s.sum_effects (byName MoS)
      - s.sum_effects (byName Armor) = 0)
    (hno : (⟨AttackDamage, "Marginal Hit", 1⟩ : Effect) ∉ s.effects) :
    ∃ s1 w0 : State,
      AttackRuleComponent.calc_attack_damage s = {s1} ∧
      s1.prob = s.prob ∧
      (⟨MarginalHit, "Base Rules", 1⟩ : Effect) ∈ s1.effects ∧
      AttackRuleComponent.marginal_hit s1
        = {w0, w0.add_effect ⟨AttackDamage, "Marginal Hit", 1⟩} ∧
      (AttackRuleComponent.marginal_hit s1).card = 2 ∧
      w0.prob = s.prob * (1 / 2 : ℚ) ∧
      (w0.add_effect ⟨AttackDamage, "Marginal Hit", 1⟩).prob
        = s.prob * (1 / 2 : ℚ) ∧
      (⟨AttackDamage, "Marginal Hit", 1⟩ : Effect) ∉ w0.effects ∧
      ∀ w ∈ AttackRuleComponent.marginal_hit s1,
        (⟨MarginalHit, "Base Rules", 1⟩ : Effect) ∉ w.effects := by
  have hcalc : AttackRuleComponent.calc_attack_damage s
      = {(s.add_effect ⟨MarginalHit, "Base Rules", 1⟩).add_effect
          ⟨AttackDamage, "Base Rules",
            max (s.sum_effects (byName WeaponDamage) + s.sum_effects (byName MoS)
              - s.sum_effects (byName Armor)) 0⟩} := by
    unfold AttackRuleComponent.calc_attack_damage
    rw [if_neg hhit]
    dsimp only
    rw [if_pos hzero]
  have hmh : (⟨MarginalHit, "Base Rules", 1⟩ : Effect) ∈
      ((s.add_effect ⟨MarginalHit, "Base Rules", 1⟩).add_effect
        ⟨AttackDamage, "Base Rules",
          max (s.sum_effects (byName WeaponDamage) + s.sum_effects (byName MoS)
            - s.sum_effects (byName Armor)) 0⟩).effects :=
    Finset.mem_insert_of_mem (Finset.mem_insert_self _ _)
  have hpend : ((s.add_effect ⟨MarginalHit, "Base Rules", 1⟩).add_effect
      ⟨AttackDamage, "Base Rules",
        max (s.sum_effects (byName WeaponDamage) + s.sum_effects (byName MoS)
          - s.sum_effects (byName Armor)) 0⟩).get_effects (byName MarginalHit)
      ≠ ∅ := by
    refine Finset.nonempty_iff_ne_empty.mp ⟨⟨MarginalHit, "Base Rules", 1⟩, ?_⟩
    refine Finset.mem_filter.mpr ⟨hmh, ?_⟩
    simp [EffFilter.holds, byName]
  have hnot1 : (⟨AttackDamage, "Marginal Hit", 1⟩ : Effect) ∉
      ((s.add_effect ⟨MarginalHit, "Base Rules", 1⟩).add_effect
        ⟨AttackDamage, "Base Rules",
          max (s.sum_effects (byName WeaponDamage) + s.sum_effects (byName MoS)
            - s.sum_effects (byName Armor)) 0⟩).effects := by
    intro hmem
    rcases Finset.mem_insert.mp hmem with h | h
    · have hs := congrArg Effect.source h
      simp at hs
    rcases Finset.mem_insert.mp h with h2 | h2
    · have hn := congrArg Effect.name h2
      simp at hn
    · exact hno h2
  obtain ⟨hbr, hcard⟩ := marginal_hit_branches _ hpend hnot1
  refine ⟨_, _, hcalc, rfl, hmh, hbr, hcard, rfl, rfl, ?_, ?_⟩
  · exact fun hmem => hnot1 (Finset.mem_of_mem_filter _ hmem)
  · intro w hw
    rw [hbr] at hw
    rcases Finset.mem_insert.mp hw with rfl | hw2
    · intro hmem
      exact (Finset.mem_filter.mp hmem).2 (by simp [EffFilter.holds, byName])
    · rw [Finset.mem_singleton] at hw2
      subst hw2
      intro hmem
      rcases Finset.mem_insert.mp hmem with h | h
      · exact absurd (congrArg Effect.name h) (by decide)
      · exact (Finset.mem_filter.mp h).2 (by simp [EffFilter.holds, byName])

/-- A `Hit` world with zero net damage that already carries the marginal-hit
bonus-damage effect: the two branches of the following `_marginal_hit` step
coincide on it. -/
def c4CollidingState : State :=
  ⟨1, {⟨Hit, "Base Rules", 1⟩, ⟨AttackDamage, "Marginal Hit", 1⟩}⟩

/-- Counterexample to C4 as stated: `c4CollidingState` is a Hit world with
`damage + margin - armor = 0`, yet running `_calc_attack_damage` and then
`_marginal_hit` on it yields one world, not the claimed two half-probability
branch worlds. -/
theorem marginal_hit_branch_counterexample :
    c4CollidingState.get_effects (byName Hit) ≠ ∅ ∧
    c4CollidingState.sum_effects (byName WeaponDamage)
      + c4CollidingState.sum_effects (byName MoS)
      - c4CollidingState.sum_effects (byName Armor) = 0 ∧
    ((AttackRuleComponent.calc_attack_damage c4CollidingState).biUnion
        AttackRuleComponent.marginal_hit).card = 1 := by
  have h1 : c4CollidingState.get_effects (byName Hit) ≠ ∅ := by decide
  have h0 : c4CollidingState.sum_effects (byName WeaponDamage)
      + c4CollidingState.sum_effects (byName MoS)
      - c4CollidingState.sum_effects (byName Armor) = 0 := by
    simp [State.sum_effects, State.get_effects, EffFilter.holds, byName,
      c4CollidingState, Finset.filter_insert, Finset.filter_singleton]
  refine ⟨h1, h0, ?_⟩
  have hcalc : AttackRuleComponent.calc_attack_damage c4CollidingState
      = {(c4CollidingState.add_effect ⟨MarginalHit, "Base Rules", 1⟩).add_effect
          ⟨AttackDamage, "Base Rules",
            max (c4CollidingState.sum_effects (byName WeaponDamage)
              + c4CollidingState.sum_effects (byName MoS)
              - c4CollidingState.sum_effects (byName Armor)) 0⟩} := by
    unfold AttackRuleComponent.calc_attack_damage
    rw [if_neg h1]
    dsimp only
    rw [if_pos h0]
  have hpend : ((c4CollidingState.add_effect ⟨MarginalHit, "Base Rules", 1⟩).add_effect
      ⟨AttackDamage, "Base Rules",
        max (c4CollidingState.sum_effects (byName WeaponDamage)
          + c4CollidingState.sum_effects (byName MoS)
          - c4CollidingState.sum_effects (byName Armor)) 0⟩).get_effects
        (byName MarginalHit) ≠ ∅ := by
    refine Finset.nonempty_iff_ne_empty.mp ⟨⟨MarginalHit, "Base Rules", 1⟩, ?_⟩
    refine Finset.mem_filter.mpr
      ⟨Finset.mem_insert_of_mem (Finset.mem_insert_self _ _), ?_⟩
    simp [EffFilter.holds, byName]
  have hin : (⟨AttackDamage, "Marginal Hit", 1⟩ : Effect) ∈
      ((c4CollidingState.add_effect ⟨MarginalHit, "Base Rules", 1⟩).add_effect
        ⟨AttackDamage, "Base Rules",
          max (c4CollidingState.sum_effects (byName WeaponDamage)
            + c4CollidingState.sum_effects (byName MoS)
            - c4CollidingState.sum_effects (byName Armor)) 0⟩).effects :=
    Finset.mem_insert_of_mem (Finset.mem_insert_of_mem
      (Finset.mem_insert_of_mem (Finset.mem_singleton_self _)))
  rw [hcalc, Finset.singleton_biUnion, marginal_hit_collapsed _ hpend hin]
  exact Finset.card_singleton _

/-- Witness for C4 on the Hit world `⟨1, {Hit (Base Rules, 1)}⟩` with no
weapon damage, margin, or armor effects. -/
theorem marginal_hit_pending_and_branch_witness :
    ∃ s1 w0 : State,
      AttackRuleComponent.calc_attack_damage ⟨1, {⟨Hit, "Base Rules", 1⟩}⟩
        = {s1} ∧
      s1.prob = (1 : ℚ) ∧
      (⟨MarginalHit, "Base Rules", 1⟩ : Effect) ∈ s1.effects ∧
      AttackRuleComponent.marginal_hit s1
        = {w0, w0.add_effect ⟨AttackDamage, "Marginal Hit", 1⟩} ∧
      (AttackRuleComponent.marginal_hit s1).card = 2 ∧
      w0.prob = (1 : ℚ) * (1 / 2 : ℚ) ∧
      (w0.add_effect ⟨AttackDamage, "Marginal Hit", 1⟩).prob
        = (1 : ℚ) * (1 / 2 : ℚ) ∧
      (⟨AttackDamage, "Marginal Hit", 1⟩ : Effect) ∉ w0.effects ∧
      ∀ w ∈ AttackRuleComponent.marginal_hit s1,
        (⟨MarginalHit, "Base Rules", 1⟩ : Effect) ∉ w.effects :=
  marginal_hit_pending_and_branch ⟨1, {⟨Hit, "Base Rules", 1⟩}⟩ (by decide)
    (by simp [State.sum_effects, State.get_effects, EffFilter.holds, byName,
      Finset.filter_singleton])
    (by decide)

/-! ## C5: `apply_damage` hull/structure arithmetic and status marking

Shorthands for the two pools `apply_damage` reads and writes. -/

/-- The summed `Hull` value of a world. -/
def hullSum (s : State) : ℚ := s.sum_effects (byName Hull)

/-- The summed `Structure` value of a world. -/
def structSum (s : State) : ℚ := s.sum_effects (byName Structure)

lemma holds_byName (n : EffectName) (e : Effect) :
    (byName n).holds e ↔ e.name = n := by
  simp [EffFilter.holds, byName]

lemma sub_min_comm (a b : ℚ) : b - min a b = max (b - a) 0 := by
  rcases le_total a b with h | h
  · rw [min_eq_left h, max_eq_left (by linarith)]
  · rw [min_eq_right h, max_eq_right (by linarith), sub_self]

lemma sub_min_self (a b : ℚ) : a - min a b = max (a - b) 0 := by
  rw [min_comm]
  exact sub_min_comm b a

lemma max_sub_of_nonneg (a V : ℚ) (hV : 0 ≤ V) :
    max (max a 0 - V) 0 = max (a - V) 0 := by
  rcases le_total a 0 with h | h
  · rw [max_eq_right h, max_eq_right (by linarith : a - V ≤ 0),
      max_eq_right (by linarith : 0 - V ≤ 0)]
  · rw [max_eq_left h]

lemma sum_effects_add_effect_other (s : State) (e : Effect) (n : EffectName)
    (h : e.name ≠ n) :
    (s.add_effect e).sum_effects (byName n) = s.sum_effects (byName n) := by
  unfold State.sum_effects State.get_effects State.add_effect
  dsimp only
  rw [Finset.filter_insert, if_neg (fun hc => h ((holds_byName n e).mp hc))]

lemma sum_effects_remove_effects_other (s : State) (m n : EffectName)
    (h : m ≠ n) :
    (s.remove_effects (byName m)).sum_effects (byName n)
      = s.sum_effects (byName n) := by
  unfold State.sum_effects State.get_effects State.remove_effects
  dsimp only
  congr 1
  ext x
  simp only [Finset.mem_filter, holds_byName]
  constructor
  · rintro ⟨⟨hx, _⟩, hn⟩
    exact ⟨hx, hn⟩
  · rintro ⟨hx, hn⟩
    exact ⟨⟨hx, fun hc => h (hn ▸ hc ▸ rfl)⟩, hn⟩

lemma sum_effects_add_effect_holds (s : State) (e : Effect) (n : EffectName)
    (h : e.name = n) (hnm : e ∉ s.effects) :
    (s.add_effect e).sum_effects (byName n)
      = e.value + s.sum_effects (byName n) := by
  unfold State.sum_effects State.get_effects State.add_effect
  dsimp only
  rw [Finset.filter_insert, if_pos ((holds_byName n e).mpr h),
    Finset.sum_insert fun hc => hnm (Finset.mem_of_mem_filter _ hc)]

lemma not_mem_remove_self (s : State) (e : Effect) (n : EffectName)
    (h : e.name = n) : e ∉ (s.remove_effects (byName n)).effects :=
  fun hc => (Finset.mem_filter.mp hc).2 ((holds_byName n e).mpr h)

lemma sum_effects_remove_self (s : State) (n : EffectName) :
    (s.remove_effects (byName n)).sum_effects (byName n) = 0 := by
  unfold State.sum_effects State.get_effects State.remove_effects
  dsimp only
  rw [Finset.filter_false_of_mem fun x hx => (Finset.mem_filter.mp hx).2,
    Finset.sum_empty]

lemma state1_hull_sum (s : State) (h1 st1 : ℚ) :
    hullSum ((((s.remove_effects (byName Hull)).remove_effects
        (byName Structure)).add_effect ⟨Hull, "Hull", h1⟩).add_effect
        ⟨Structure, "Structure", st1⟩) = h1 := by
  unfold hullSum
  rw [sum_effects_add_effect_other _ ⟨Structure, "Structure", st1⟩ Hull (by simp),
    sum_effects_add_effect_holds _ ⟨Hull, "Hull", h1⟩ Hull rfl
      (fun hc => not_mem_remove_self s ⟨Hull, "Hull", h1⟩ Hull rfl
        (Finset.mem_of_mem_filter _ hc)),
    sum_effects_remove_effects_other _ Structure Hull (by decide),
    sum_effects_remove_self, add_zero]

lemma state1_struct_sum (s : State) (h1 st1 : ℚ) :
    structSum ((((s.remove_effects (byName Hull)).remove_effects
        (byName Structure)).add_effect ⟨Hull, "Hull", h1⟩).add_effect
        ⟨Structure, "Structure", st1⟩) = st1 := by
  unfold structSum
  rw [sum_effects_add_effect_holds _ ⟨Structure, "Structure", st1⟩ Structure rfl ?hnm,
    sum_effects_add_effect_other _ ⟨Hull, "Hull", h1⟩ Structure (by simp),
    sum_effects_remove_self, add_zero]
  case hnm =>
    intro hc
    rcases Finset.mem_insert.mp hc with h | h
    · have := congrArg Effect.name h
      simp at this
    · exact not_mem_remove_self _ ⟨Structure, "Structure", st1⟩ Structure rfl h

lemma hullSum_add_destroyed (s : State) (src : String) :
    hullSum (s.add_effect ⟨Destroyed, src, 1⟩) = hullSum s :=
  sum_effects_add_effect_other s _ Hull (by simp)

lemma hullSum_add_crippled (s : State) (src : String) :
    hullSum (s.add_effect ⟨Crippled, src, 1⟩) = hullSum s :=
  sum_effects_add_effect_other s _ Hull (by simp)

lemma hullSum_add_overdamage (s : State) (src : String) (v : ℚ) :
    hullSum (s.add_effect ⟨Overdamage, src, v⟩) = hullSum s :=
  sum_effects_add_effect_other s _ Hull (by simp)

lemma hullSum_remove_crippled (s : State) :
    hullSum (s.remove_effects (byName Crippled)) = hullSum s :=
  sum_effects_remove_effects_other s Crippled Hull (by decide)

lemma structSum_add_destroyed (s : State) (src : String) :
    structSum (s.add_effect ⟨Destroyed, src, 1⟩) = structSum s :=
  sum_effects_add_effect_other s _ Structure (by simp)

lemma structSum_add_crippled (s : State) (src : String) :
    structSum (s.add_effect ⟨Crippled, src, 1⟩) = structSum s :=
  sum_effects_add_effect_other s _ Structure (by simp)

lemma structSum_add_overdamage (s : State) (src : String) (v : ℚ) :
    structSum (s.add_effect ⟨Overdamage, src, v⟩) = structSum s :=
  sum_effects_add_effect_other s _ Structure (by simp)

lemma structSum_remove_crippled (s : State) :
    structSum (s.remove_effects (byName Crippled)) = structSum s :=
  sum_effects_remove_effects_other s Crippled Structure (by decide)

lemma damage_step_hull_sum_raw (s : State) (e : Effect) :
    hullSum (damage_step s e)
      = s.sum_effects (byName Hull)
        - min e.value (s.sum_effects (byName Hull)) := by
  unfold damage_step
  dsimp only
  split_ifs <;>
    simp only [hullSum_add_destroyed, hullSum_add_crippled,
      hullSum_add_overdamage, hullSum_remove_crippled, state1_hull_sum]

lemma damage_step_struct_sum_raw (s : State) (e : Effect) :
    structSum (damage_step s e)
      = s.sum_effects (byName Structure)
        - min (e.value - min e.value (s.sum_effects (byName Hull)))
            (s.sum_effects (byName Structure)) := by
  unfold damage_step
  dsimp only
  split_ifs <;>
    simp only [structSum_add_destroyed, structSum_add_crippled,
      structSum_add_overdamage, structSum_remove_crippled, state1_struct_sum]

lemma damage_step_hull_sum (s : State) (e : Effect) :
    hullSum (damage_step s e) = max (hullSum s - e.value) 0 := by
  rw [damage_step_hull_sum_raw]
  unfold hullSum
  rw [sub_min_comm]

lemma damage_step_struct_sum (s : State) (e : Effect) :
    structSum (damage_step s e)
      = max (structSum s - max (e.value - hullSum s) 0) 0 := by
  rw [damage_step_struct_sum_raw]
  unfold structSum hullSum
  rw [sub_min_comm, sub_min_self]

lemma mem_state1_of_mem (s : State) (x : Effect) (hx : x ∈ s.effects)
    (h1 : x.name ≠ Hull) (h2 : x.name ≠ Structure) :
    x ∈ (((s.remove_effects (byName Hull)).remove_effects
        (byName Structure)).effects) := by
  refine Finset.mem_filter.mpr ⟨Finset.mem_filter.mpr ⟨hx, ?_⟩, ?_⟩
  · exact fun hc => h1 ((holds_byName Hull x).mp hc)
  · exact fun hc => h2 ((holds_byName Structure x).mp hc)

lemma mem_state1_cases (s : State) (h1 st1 : ℚ) (x : Effect)
    (hx : x ∈ ((((s.remove_effects (byName Hull)).remove_effects
        (byName Structure)).add_effect ⟨Hull, "Hull", h1⟩).add_effect
        ⟨Structure, "Structure", st1⟩).effects) :
    x = ⟨Structure, "Structure", st1⟩ ∨ x = ⟨Hull, "Hull", h1⟩ ∨
      x ∈ s.effects := by
  rcases Finset.mem_insert.mp hx with h | h
  · exact Or.inl h
  rcases Finset.mem_insert.mp h with h' | h'
  · exact Or.inr (Or.inl h')
  · exact Or.inr (Or.inr (Finset.mem_of_mem_filter _
      (Finset.mem_of_mem_filter _ h')))

lemma mem_remove_effects_of (s : State) (f : EffFilter) (x : Effect)
    (hx : x ∈ s.effects) (h : ¬ f.holds x) : x ∈ (s.remove_effects f).effects :=
  Finset.mem_filter.mpr ⟨hx, h⟩

lemma mem_add_effect_of (s : State) (e x : Effect) (hx : x ∈ s.effects) :
    x ∈ (s.add_effect e).effects :=
  Finset.mem_insert_of_mem hx

lemma mem_add_effect_self (s : State) (e : Effect) :
    e ∈ (s.add_effect e).effects :=
  Finset.mem_insert_self _ _

/-- `damage_step` never removes an effect whose name is not `Hull`,
`Structure` or `Crippled`. -/
lemma damage_step_mem_preserved (s : State) (e x : Effect) (hx : x ∈ s.effects)
    (h1 : x.name ≠ Hull) (h2 : x.name ≠ Structure) (h3 : x.name ≠ Crippled) :
    x ∈ (damage_step s e).effects := by
  have hin2 := mem_state1_of_mem s x hx h1 h2
  have hst1 : x ∈ ((((s.remove_effects (byName Hull)).remove_effects
      (byName Structure)).add_effect
        ⟨Hull, "Hull", s.sum_effects (byName Hull)
          - min e.value (s.sum_effects (byName Hull))⟩).add_effect
        ⟨Structure, "Structure", s.sum_effects (byName Structure)
          - min (e.value - min e.value (s.sum_effects (byName Hull)))
              (s.sum_effects (byName Structure))⟩).effects :=
    Finset.mem_insert_of_mem (Finset.mem_insert_of_mem hin2)
  unfold damage_step
  dsimp only
  have hcr : ¬ (byName Crippled).holds x :=
    fun hc => h3 ((holds_byName Crippled x).mp hc)
  split_ifs <;>
    first
      | exact hst1
      | exact mem_add_effect_of _ _ _ hst1
      | exact mem_add_effect_of _ _ _ (mem_add_effect_of _ _ _ hst1)
      | exact mem_remove_effects_of _ _ _
          (mem_add_effect_of _ _ _ hst1) hcr
      | exact mem_add_effect_of _ _ _ (mem_remove_effects_of _ _ _
          (mem_add_effect_of _ _ _ hst1) hcr)

/-- When an iteration of `apply_damage` ends with the structure pool at 0,
it marks `Destroyed` and strips every `Crippled` effect. -/
lemma damage_step_destroyed_mark (s : State) (e : Effect)
    (h0 : structSum (damage_step s e) = 0) :
    (∃ x ∈ (damage_step s e).effects, x.name = Destroyed) ∧
    ∀ x ∈ (damage_step s e).effects, x.name ≠ Crippled := by
  have hA : s.sum_effects (byName Structure)
      - min (e.value - min e.value (s.sum_effects (byName Hull)))
          (s.sum_effects (byName Structure)) = 0 := by
    rw [← damage_step_struct_sum_raw s e]
    exact h0
  unfold damage_step
  dsimp only
  rw [if_pos hA]
  split_ifs with hov
  · constructor
    · exact ⟨⟨Destroyed, e.source, 1⟩,
        mem_add_effect_of _ _ _ (mem_remove_effects_of _ _ _
          (mem_add_effect_self _ _) (by simp [EffFilter.holds, byName])), rfl⟩
    · intro x hx
      rcases Finset.mem_insert.mp hx with h | h
      · subst h; simp
      · exact fun hc => (Finset.mem_filter.mp h).2 ((holds_byName Crippled x).mpr hc)
  · constructor
    · exact ⟨⟨Destroyed, e.source, 1⟩,
        mem_remove_effects_of _ _ _ (mem_add_effect_self _ _)
          (by simp [EffFilter.holds, byName]), rfl⟩
    · intro x hx
      exact fun hc => (Finset.mem_filter.mp hx).2 ((holds_byName Crippled x).mpr hc)

/-- When an iteration ends with the hull pool at 0 but structure positive,
the resulting world carries a `Crippled` effect. -/
lemma damage_step_crippled_mark (s : State) (e : Effect)
    (hh0 : hullSum (damage_step s e) = 0)
    (hstpos : structSum (damage_step s e) ≠ 0) :
    ∃ x ∈ (damage_step s e).effects, x.name = Crippled := by
  have hA : ¬ (s.sum_effects (byName Structure)
      - min (e.value - min e.value (s.sum_effects (byName Hull)))
          (s.sum_effects (byName Structure)) = 0) := by
    rw [← damage_step_struct_sum_raw s e]
    exact hstpos
  have hB1 : s.sum_effects (byName Hull)
      - min e.value (s.sum_effects (byName Hull)) = 0 := by
    rw [← damage_step_hull_sum_raw s e]
    exact hh0
  unfold damage_step
  dsimp only
  simp only [if_neg hA]
  by_cases hcr : ((((s.remove_effects (byName Hull)).remove_effects
      (byName Structure)).add_effect
        ⟨Hull, "Hull", s.sum_effects (byName Hull)
          - min e.value (s.sum_effects (byName Hull))⟩).add_effect
        ⟨Structure, "Structure", s.sum_effects (byName Structure)
          - min (e.value - min e.value (s.sum_effects (byName Hull)))
              (s.sum_effects (byName Structure))⟩).get_effects (byName Crippled)
      = ∅
  · simp only [if_pos (And.intro hB1 hcr)]
    split_ifs with hov
    · exact ⟨⟨Crippled, e.source, 1⟩,
        mem_add_effect_of _ _ _ (mem_add_effect_self _ _), rfl⟩
    · exact ⟨⟨Crippled, e.source, 1⟩, mem_add_effect_self _ _, rfl⟩
  · simp only [if_neg (fun hc => hcr (And.right hc))]
    obtain ⟨x, hx⟩ := Finset.nonempty_iff_ne_empty.mpr hcr
    have hxm := Finset.mem_filter.mp hx
    have hname := (holds_byName Crippled x).mp hxm.2
    split_ifs with hov
    · exact ⟨x, mem_add_effect_of _ _ _ hxm.1, hname⟩
    · exact ⟨x, hxm.1, hname⟩

lemma no_destroyed_insert (E : Finset Effect) (y : Effect)
    (hy : y.name ≠ Destroyed) (hE : ∀ x ∈ E, x.name ≠ Destroyed) :
    ∀ x ∈ insert y E, x.name ≠ Destroyed := by
  intro x hx
  rcases Finset.mem_insert.mp hx with h | h
  · subst h; exact hy
  · exact hE x h

/-- When an iteration ends with structure nonzero, it adds no `Destroyed`
effect. -/
lemma damage_step_no_destroyed (s : State) (e : Effect)
    (hstpos : structSum (damage_step s e) ≠ 0)
    (hnone : ∀ x ∈ s.effects, x.name ≠ Destroyed) :
    ∀ x ∈ (damage_step s e).effects, x.name ≠ Destroyed := by
  have hA : ¬ (s.sum_effects (byName Structure)
      - min (e.value - min e.value (s.sum_effects (byName Hull)))
          (s.sum_effects (byName Structure)) = 0) := by
    rw [← damage_step_struct_sum_raw s e]
    exact hstpos
  have hbase : ∀ x ∈ ((((s.remove_effects (byName Hull)).remove_effects
      (byName Structure)).add_effect
        ⟨Hull, "Hull", s.sum_effects (byName Hull)
          - min e.value (s.sum_effects (byName Hull))⟩).add_effect
        ⟨Structure, "Structure", s.sum_effects (byName Structure)
          - min (e.value - min e.value (s.sum_effects (byName Hull)))
              (s.sum_effects (byName Structure))⟩).effects,
      x.name ≠ Destroyed := by
    intro x hx
    rcases mem_state1_cases s _ _ x hx with h | h | h
    · subst h; simp
    · subst h; simp
    · exact hnone x h
  unfold damage_step
  dsimp only
  rw [if_neg hA]
  split_ifs <;>
    first
      | exact hbase
      | exact no_destroyed_insert _ _ (by simp) hbase
      | exact no_destroyed_insert _ _ (by simp)
          (no_destroyed_insert _ _ (by simp) hbase)

/-- When an iteration leaves damage beyond hull and structure, it records
an `Overdamage` effect from the damage effect's source. -/
lemma damage_step_overdamage_mark (s : State) (e : Effect)
    (hov : 0 < e.value - min e.value (s.sum_effects (byName Hull))
        - min (e.value - min e.value (s.sum_effects (byName Hull)))
            (s.sum_effects (byName Structure))) :
    ∃ x ∈ (damage_step s e).effects,
      x.name = Overdamage ∧ x.source = e.source ∧ 0 < x.value := by
  unfold damage_step
  dsimp only
  rw [if_pos hov]
  split_ifs <;>
    exact ⟨⟨Overdamage, e.source, _⟩, mem_add_effect_self _ _, rfl, rfl, hov⟩

/-- Total pending damage of a list of damage effects. -/
def valsum (l : List Effect) : ℚ := (l.map Effect.value).sum

lemma valsum_nil : valsum [] = 0 := rfl

lemma valsum_cons (e : Effect) (l : List Effect) :
    valsum (e :: l) = e.value + valsum l := rfl

lemma valsum_nonneg (l : List Effect) (h : ∀ e ∈ l, 0 ≤ e.value) :
    0 ≤ valsum l := by
  refine List.sum_nonneg ?_
  intro x hx
  obtain ⟨e, he, rfl⟩ := List.mem_map.mp hx
  exact h e he

/-- The aggregate hull/structure arithmetic of the `apply_damage` loop:
damage is taken from hull first, the remainder from structure. -/
lemma foldl_damage_sums (l : List Effect) (s : State)
    (hvals : ∀ e ∈ l, 0 ≤ e.value) (hh : 0 ≤ hullSum s)
    (hst : 0 ≤ structSum s) :
    hullSum (l.foldl damage_step s) = max (hullSum s - valsum l) 0 ∧
    structSum (l.foldl damage_step s)
      = max (structSum s - max (valsum l - hullSum s) 0) 0 := by
  induction l generalizing s with
  | nil =>
    rw [List.foldl_nil, valsum_nil]
    constructor
    · rw [sub_zero, max_eq_left hh]
    · rw [max_eq_right (by linarith : 0 - hullSum s ≤ 0), sub_zero,
        max_eq_left hst]
  | cons e l ih =>
    have hd : 0 ≤ e.value := hvals e (List.mem_cons_self e l)
    have hvals' : ∀ x ∈ l, 0 ≤ x.value :=
      fun x hx => hvals x (List.mem_cons_of_mem _ hx)
    have hh' : 0 ≤ hullSum (damage_step s e) := by
      rw [damage_step_hull_sum]; exact le_max_right _ _
    have hst' : 0 ≤ structSum (damage_step s e) := by
      rw [damage_step_struct_sum]; exact le_max_right _ _
    obtain ⟨ih1, ih2⟩ := ih (damage_step s e) hvals' hh' hst'
    rw [List.foldl_cons, valsum_cons]
    have hV := valsum_nonneg l hvals'
    constructor
    · rw [ih1, damage_step_hull_sum, max_sub_of_nonneg _ _ hV,
        show hullSum s - e.value - valsum l
          = hullSum s - (e.value + valsum l) from by ring]
    · rw [ih2, damage_step_hull_sum, damage_step_struct_sum]
      rcases le_total e.value (hullSum s) with hdh | hdh
      · rw [max_eq_left (by linarith : (0:ℚ) ≤ hullSum s - e.value),
          max_eq_right (by linarith : e.value - hullSum s ≤ 0), sub_zero,
          max_eq_left hst,
          show valsum l - (hullSum s - e.value)
            = e.value + valsum l - hullSum s from by ring]
      · rw [max_eq_right (by linarith : hullSum s - e.value ≤ 0),
          max_eq_left (by linarith : (0:ℚ) ≤ e.value - hullSum s), sub_zero,
          max_eq_left hV, max_sub_of_nonneg _ _ hV,
          show structSum s - (e.value - hullSum s) - valsum l
            = structSum s - (e.value + valsum l - hullSum s) from by ring,
          max_eq_left (by linarith : (0:ℚ) ≤ e.value + valsum l - hullSum s)]

/-- Effects whose name is not `Hull`, `Structure` or `Crippled` survive the
whole `apply_damage` loop. -/
lemma foldl_mem_preserved (l : List Effect) (s : State) (x : Effect)
    (hx : x ∈ s.effects) (h1 : x.name ≠ Hull) (h2 : x.name ≠ Structure)
    (h3 : x.name ≠ Crippled) : x ∈ (l.foldl damage_step s).effects := by
  induction l generalizing s with
  | nil => exact hx
  | cons e l ih =>
    rw [List.foldl_cons]
    exact ih (damage_step s e) (damage_step_mem_preserved s e x hx h1 h2 h3)

/-- When the pending damage exceeds hull plus structure, the loop records an
`Overdamage` effect from the common source. -/
lemma foldl_overdamage (l : List Effect) (s : State) (src : String)
    (hvals : ∀ e ∈ l, 0 ≤ e.value) (hsl : ∀ e ∈ l, e.source = src)
    (hh : 0 ≤ hullSum s) (hst : 0 ≤ structSum s)
    (hover : hullSum s + structSum s < valsum l) :
    ∃ x ∈ (l.foldl damage_step s).effects,
      x.name = Overdamage ∧ x.source = src ∧ 0 < x.value := by
  induction l generalizing s with
  | nil =>
    rw [valsum_nil] at hover
    exact absurd hover (by linarith)
  | cons e l ih =>
    have hd : 0 ≤ e.value := hvals e (List.mem_cons_self e l)
    have hvals' : ∀ x ∈ l, 0 ≤ x.value :=
      fun x hx => hvals x (List.mem_cons_of_mem _ hx)
    have hsl' : ∀ x ∈ l, x.source = src :=
      fun x hx => hsl x (List.mem_cons_of_mem _ hx)
    have hV := valsum_nonneg l hvals'
    rw [valsum_cons] at hover
    rw [List.foldl_cons]
    rcases lt_or_le (hullSum s + structSum s) e.value with hcase | hcase
    · have hhr : 0 ≤ s.sum_effects (byName Hull) := hh
      have hstr : 0 ≤ s.sum_effects (byName Structure) := hst
      have hcr : s.sum_effects (byName Hull) + s.sum_effects (byName Structure)
          < e.value := hcase
      have h1 : s.sum_effects (byName Hull) ≤ e.value := by linarith
      have h2 : s.sum_effects (byName Structure)
          ≤ e.value - s.sum_effects (byName Hull) := by linarith
      have hov : 0 < e.value - min e.value (s.sum_effects (byName Hull))
          - min (e.value - min e.value (s.sum_effects (byName Hull)))
              (s.sum_effects (byName Structure)) := by
        rw [min_eq_right h1, min_eq_right h2]
        linarith
      obtain ⟨x, hx, hxn, hxs, hxv⟩ := damage_step_overdamage_mark s e hov
      refine ⟨x, foldl_mem_preserved l _ x hx ?_ ?_ ?_, hxn,
        hxs.trans (hsl e (List.mem_cons_self e l)), hxv⟩
      · rw [hxn]; simp
      · rw [hxn]; simp
      · rw [hxn]; simp
    · have hh' : 0 ≤ hullSum (damage_step s e) := by
        rw [damage_step_hull_sum]; exact le_max_right _ _
      have hst' : 0 ≤ structSum (damage_step s e) := by
        rw [damage_step_struct_sum]; exact le_max_right _ _
      refine ih (damage_step s e) hvals' hsl' hh' hst' ?_
      rw [damage_step_hull_sum, damage_step_struct_sum]
      rcases le_total e.value (hullSum s) with hdh | hdh
      · rw [max_eq_left (by linarith : (0:ℚ) ≤ hullSum s - e.value),
          max_eq_right (by linarith : e.value - hullSum s ≤ 0), sub_zero,
          max_eq_left hst]
        linarith
      · rw [max_eq_right (by linarith : hullSum s - e.value ≤ 0),
          max_eq_left (by linarith : (0:ℚ) ≤ e.value - hullSum s),
          max_eq_left (by linarith : (0:ℚ) ≤ structSum s - (e.value - hullSum s))]
        linarith

/-- If the structure pool is still positive after the loop, no `Destroyed`
effect was ever added. -/
lemma foldl_no_destroyed (l : List Effect) (s : State)
    (hvals : ∀ e ∈ l, 0 ≤ e.value) (hh : 0 ≤ hullSum s)
    (hst : 0 ≤ structSum s)
    (hpos : 0 < structSum (l.foldl damage_step s))
    (hnone : ∀ x ∈ s.effects, x.name ≠ Destroyed) :
    ∀ x ∈ (l.foldl damage_step s).effects, x.name ≠ Destroyed := by
  induction l generalizing s with
  | nil => exact hnone
  | cons e l ih =>
    have hvals' : ∀ x ∈ l, 0 ≤ x.value :=
      fun x hx => hvals x (List.mem_cons_of_mem _ hx)
    have hh' : 0 ≤ hullSum (damage_step s e) := by
      rw [damage_step_hull_sum]; exact le_max_right _ _
    have hst' : 0 ≤ structSum (damage_step s e) := by
      rw [damage_step_struct_sum]; exact le_max_right _ _
    rw [List.foldl_cons] at hpos ⊢
    have hmono : structSum (l.foldl damage_step (damage_step s e))
        ≤ structSum (damage_step s e) := by
      rw [(foldl_damage_sums l (damage_step s e) hvals' hh' hst').2]
      have hVh : 0 ≤ max (valsum l - hullSum (damage_step s e)) 0 :=
        le_max_right _ _
      exact max_le (by linarith) hst'
    have hstep_pos : structSum (damage_step s e) ≠ 0 := by
      intro hzero
      rw [hzero] at hmono
      linarith
    exact ih (damage_step s e) hvals' hh' hst'
      hpos (damage_step_no_destroyed s e hstep_pos hnone)

/-- If the loop runs at least once and ends with structure 0, the final
world is `Destroyed` and carries no `Crippled` effect. -/
lemma foldl_destroyed_of_struct_zero (l : List Effect) (s : State)
    (hne : l ≠ []) (h0 : structSum (l.foldl damage_step s) = 0) :
    (∃ x ∈ (l.foldl damage_step s).effects, x.name = Destroyed) ∧
    ∀ x ∈ (l.foldl damage_step s).effects, x.name ≠ Crippled := by
  obtain ⟨L, b, rfl⟩ := (List.eq_nil_or_concat' l).resolve_left hne
  rw [List.foldl_concat] at h0 ⊢
  exact damage_step_destroyed_mark _ b h0

/-- If the loop runs at least once and ends with hull 0 but structure
positive, the final world carries a `Crippled` effect. -/
lemma foldl_crippled_of_hull_zero (l : List Effect) (s : State)
    (hne : l ≠ []) (hh0 : hullSum (l.foldl damage_step s) = 0)
    (hstpos : structSum (l.foldl damage_step s) ≠ 0) :
    ∃ x ∈ (l.foldl damage_step s).effects, x.name = Crippled := by
  obtain ⟨L, b, rfl⟩ := (List.eq_nil_or_concat' l).resolve_left hne
  rw [List.foldl_concat] at hh0 hstpos ⊢
  exact damage_step_crippled_mark _ b hh0 hstpos

lemma sort_valsum (E : Finset Effect) :
    valsum (E.sort effectSortLe) = ∑ e in E, e.value := by
  show (List.map Effect.value (E.sort effectSortLe)).sum
    = (Multiset.map Effect.value E.val).sum
  rw [← Finset.sort_eq effectSortLe E, Multiset.map_coe, Multiset.sum_coe]

lemma sort_ne_nil (E : Finset Effect) (hE : E ≠ ∅) :
    E.sort effectSortLe ≠ [] := by
  intro h
  apply hE
  have hs := Finset.sort_eq effectSortLe E
  rw [h] at hs
  exact Finset.val_eq_zero.mp hs.symm

lemma source_of_mem_get (s : State) (filter : EffFilter) (src : String)
    (e : Effect) (hsrc : filter.source = some src)
    (he : e ∈ s.get_effects filter) : e.source = src :=
  (Finset.mem_filter.mp he).2.2 src (by simp [hsrc])

/-- C5: on every non-`Destroyed` world with nonnegative hull, structure and
matching damage values, `apply_damage` takes the total matching damage out
of hull first and then structure, records damage in excess of both pools as
an `Overdamage` effect from the filtered source, marks `Crippled` exactly
when the hull pool ends at 0 with structure still positive, marks
`Destroyed` (and strips `Crippled`) when the structure pool ends at 0, and
never leaves a world that is both `Crippled` and `Destroyed`. -/
theorem apply_damage_spec (s : State) (filter : EffFilter) (src : String)
    (hsrc : filter.source = some src)
    (hnd : s.get_effects (byName Destroyed) = ∅)
    (hh : 0 ≤ hullSum s) (hst : 0 ≤ structSum s)
    (hvals : ∀ e ∈ s.get_effects filter, 0 ≤ e.value) :
    hullSum (apply_damage s filter)
      = max (hullSum s - s.sum_effects filter) 0 ∧
    structSum (apply_damage s filter)
      = max (structSum s - max (s.sum_effects filter - hullSum s) 0) 0 ∧
    (hullSum s + structSum s < s.sum_effects filter →
      ∃ x ∈ (apply_damage s filter).effects,
        x.name = Overdamage ∧ x.source = src ∧ 0 < x.value) ∧
    (hullSum (apply_damage s filter) = 0 →
      0 < structSum (apply_damage s filter) →
      s.get_effects filter ≠ ∅ →
      ∃ x ∈ (apply_damage s filter).effects, x.name = Crippled) ∧
    (structSum (apply_damage s filter) = 0 → s.get_effects filter ≠ ∅ →
      (∃ x ∈ (apply_damage s filter).effects, x.name = Destroyed) ∧
      ∀ x ∈ (apply_damage s filter).effects, x.name ≠ Crippled) ∧
    ¬ ((∃ x ∈ (apply_damage s filter).effects, x.name = Crippled) ∧
       (∃ x ∈ (apply_damage s filter).effects, x.name = Destroyed)) := by
  have hloop : apply_damage s filter
      = ((s.get_effects filter).sort effectSortLe).foldl damage_step s := by
    unfold apply_damage
    rw [if_neg fun hc => hc hnd]
  have hvl : ∀ e ∈ (s.get_effects filter).sort effectSortLe, 0 ≤ e.value :=
    fun e he => hvals e (Finset.mem_sort effectSortLe |>.mp he)
  have hsl : ∀ e ∈ (s.get_effects filter).sort effectSortLe, e.source = src :=
    fun e he => source_of_mem_get s filter src e hsrc
      (Finset.mem_sort effectSortLe |>.mp he)
  have hval : valsum ((s.get_effects filter).sort effectSortLe)
      = s.sum_effects filter := sort_valsum _
  obtain ⟨hhull, hstruct⟩ :=
    foldl_damage_sums ((s.get_effects filter).sort effectSortLe) s hvl hh hst
  have hnone : ∀ x ∈ s.effects, x.name ≠ Destroyed := by
    intro x hx hcontra
    have hmem2 : x ∈ s.get_effects (byName Destroyed) :=
      Finset.mem_filter.mpr ⟨hx, (holds_byName _ _).mpr hcontra⟩
    rw [hnd] at hmem2
    exact absurd hmem2 (Finset.not_mem_empty _)
  rw [hloop]
  refine ⟨?_, ?_, ?_, ?_, ?_, ?_⟩
  · rw [hhull, hval]
  · rw [hstruct, hval]
  · intro hov
    exact foldl_overdamage _ s src hvl hsl hh hst (by rw [hval]; exact hov)
  · intro h10 h2 h3
    exact foldl_crippled_of_hull_zero _ s (sort_ne_nil _ h3) h10 (ne_of_gt h2)
  · intro h0 h3
    exact foldl_destroyed_of_struct_zero _ s (sort_ne_nil _ h3) h0
  · rintro ⟨⟨xc, hxc, hcn⟩, ⟨xd, hxd, hdn⟩⟩
    by_cases hl : (s.get_effects filter).sort effectSortLe = []
    · rw [hl, List.foldl_nil] at hxd
      exact hnone xd hxd hdn
    · rcases eq_or_ne
        (structSum (((s.get_effects filter).sort effectSortLe).foldl
          damage_step s)) 0 with hz | hz
      · exact (foldl_destroyed_of_struct_zero _ s hl hz).2 xc hxc hcn
      · have hpos : 0 < structSum
            (((s.get_effects filter).sort effectSortLe).foldl damage_step s) :=
          lt_of_le_of_ne (by rw [hstruct]; exact le_max_right _ _) (Ne.symm hz)
        exact foldl_no_destroyed _ s hvl hh hst hpos hnone xd hxd hdn

/-- The concrete world for the C5 witness: hull 1, structure 1, one pending
attack-damage effect of value 1 from "Base Rules". -/
def c5World : State :=
  ⟨1, {⟨Hull, "Hull", 1⟩, ⟨Structure, "Structure", 1⟩,
       ⟨AttackDamage, "Base Rules", 1⟩}⟩

/-- Witness for C5 at `c5World` with the `_apply_attack_damage` filter for
source "Base Rules". -/
theorem apply_damage_spec_witness :
    hullSum (apply_damage c5World (byNameSource AttackDamage "Base Rules"))
      = max (hullSum c5World
          - c5World.sum_effects (byNameSource AttackDamage "Base Rules")) 0 ∧
    structSum (apply_damage c5World (byNameSource AttackDamage "Base Rules"))
      = max (structSum c5World
          - max (c5World.sum_effects (byNameSource AttackDamage "Base Rules")
              - hullSum c5World) 0) 0 ∧
    (hullSum c5World + structSum c5World
        < c5World.sum_effects (byNameSource AttackDamage "Base Rules") →
      ∃ x ∈ (apply_damage c5World
          (byNameSource AttackDamage "Base Rules")).effects,
        x.name = Overdamage ∧ x.source = "Base Rules" ∧ 0 < x.value) ∧
    (hullSum (apply_damage c5World (byNameSource AttackDamage "Base Rules")) = 0 →
      0 < structSum (apply_damage c5World
          (byNameSource AttackDamage "Base Rules")) →
      c5World.get_effects (byNameSource AttackDamage "Base Rules") ≠ ∅ →
      ∃ x ∈ (apply_damage c5World
          (byNameSource AttackDamage "Base Rules")).effects,
        x.name = Crippled) ∧
    (structSum (apply_damage c5World (byNameSource AttackDamage "Base Rules")) = 0 →
      c5World.get_effects (byNameSource AttackDamage "Base Rules") ≠ ∅ →
      (∃ x ∈ (apply_damage c5World
          (byNameSource AttackDamage "Base Rules")).effects,
        x.name = Destroyed) ∧
      ∀ x ∈ (apply_damage c5World
          (byNameSource AttackDamage "Base Rules")).effects,
        x.name ≠ Crippled) ∧
    ¬ ((∃ x ∈ (apply_damage c5World
          (byNameSource AttackDamage "Base Rules")).effects,
        x.name = Crippled) ∧
       (∃ x ∈ (apply_damage c5World
          (byNameSource AttackDamage "Base Rules")).effects,
        x.name = Destroyed)) :=
  apply_damage_spec c5World (byNameSource AttackDamage "Base Rules")
    "Base Rules" rfl (by decide)
    (by simp [hullSum, State.sum_effects, State.get_effects, EffFilter.holds,
      byName, c5World, Finset.filter_insert, Finset.filter_singleton,
      Finset.sum_singleton])
    (by simp [structSum, State.sum_effects, State.get_effects, EffFilter.holds,
      byName, c5World, Finset.filter_insert, Finset.filter_singleton,
      Finset.sum_singleton])
    (by simp [State.get_effects, EffFilter.holds, byNameSource, c5World,
      Finset.filter_insert, Finset.filter_singleton])
